import Mathlib

/-!
Verification of the replication core of a replicated key-value store
(package `store`): the record map with last-write-wins conflict
resolution, the message-deduplication ledger, and the snapshot
(anti-entropy) merge path.

The Go `Store` holds `data map[string]Value` and
`lastSeenMsgID map[string]bool` behind one lock.  We model the record
map as an association list with unique keys (the Go map guarantees key
uniqueness; lookups and updates are per-key, so iteration order is
irrelevant to the results proved here) and the dedup ledger as a list
of seen message ids with membership test.  `int64` timestamps are
modelled as `Int` (only comparisons matter, no arithmetic overflows).
-/

namespace SimpleKV

/-- The Go `Value` struct: `Data string`, `Timestamp int64`, `MsgID string`. -/
structure Value where
  data : String
  timestamp : Int
  msgID : String
deriving DecidableEq

/-- Lookup in an association list, mirroring Go `current, exists := s.data[key]`. -/
def lookupKey : List (String × Value) → String → Option Value
  | [], _ => none
  | (k', v) :: rest, k => if k' = k then some v else lookupKey rest k

/-- Map assignment `s.data[key] = v`: replace the binding if present, else append. -/
def setKey : List (String × Value) → String → Value → List (String × Value)
  | [], k, v => [(k, v)]
  | (k', v') :: rest, k, v =>
    if k' = k then (k, v) :: rest else (k', v') :: setKey rest k v

/-- Map deletion `delete(s.data, key)`. -/
def delKey : List (String × Value) → String → List (String × Value)
  | [], _ => []
  | (k', v') :: rest, k =>
    if k' = k then delKey rest k else (k', v') :: delKey rest k

/-- The Go `Store`: record map `data` plus dedup ledger `lastSeenMsgID`. -/
structure Store where
  data : List (String × Value)
  lastSeenMsgID : List String
deriving DecidableEq

/-- `store.New()`: empty record map, empty dedup ledger. -/
def New : Store := ⟨[], []⟩

/-- `(*Store).Set(key, value string, timestamp int64, msgID string)`:
dedup gate first (silent no-op when `msgID` was seen), then mark the id
seen, then write iff the key is absent or the timestamp is strictly
greater than the current record's. -/
def Set (key value : String) (timestamp : Int) (msgID : String) (s : Store) : Store :=
  if s.lastSeenMsgID.contains msgID then s
  else
    let seen' := msgID :: s.lastSeenMsgID
    match lookupKey s.data key with
    | none => ⟨setKey s.data key ⟨value, timestamp, msgID⟩, seen'⟩
    | some current =>
      if timestamp > current.timestamp then
        ⟨setKey s.data key ⟨value, timestamp, msgID⟩, seen'⟩
      else ⟨s.data, seen'⟩

/-- `(*Store).Get(key string) (string, bool)`: point lookup, Go zero value on miss. -/
def Get (key : String) (s : Store) : String × Bool :=
  match lookupKey s.data key with
  | none => ("", false)
  | some v => (v.data, true)

/-- `(*Store).Del(key string, timestamp int64, msgID string)`:
dedup gate first, then mark seen, then remove the key iff a record
exists and the timestamp is strictly greater than its stored one. -/
def Del (key : String) (timestamp : Int) (msgID : String) (s : Store) : Store :=
  if s.lastSeenMsgID.contains msgID then s
  else
    let seen' := msgID :: s.lastSeenMsgID
    match lookupKey s.data key with
    | none => ⟨s.data, seen'⟩
    | some current =>
      if timestamp > current.timestamp then ⟨delKey s.data key, seen'⟩
      else ⟨s.data, seen'⟩

/-!
Snapshot wire format.  The Go code serializes `StoreSnapshot` with
`encoding/json`.  We model `json.Marshal`/`json.Unmarshal` for this one
type by a concrete injective encoder over `List Char` (standing for the
`[]byte` blob) together with a total decoder that returns `none` on any
input the encoder cannot produce — exactly the properties of the JSON
round trip the code relies on: lossless round-tripping, and parse
failure on malformed payloads.
-/

/-- Unary length marker terminated by a colon. -/
def encNat (n : Nat) : List Char := List.replicate n '1' ++ [':']

/-- Length-prefixed string field. -/
def encStr (s : String) : List Char := encNat s.data.length ++ s.data

/-- Signed integer field (sign marker then unary magnitude). -/
def encInt : Int → List Char
  | Int.ofNat n => '+' :: encNat n
  | Int.negSucc n => '-' :: encNat n

/-- One serialized record: value payload, timestamp, origin message id. -/
def encValue (v : Value) : List Char := encStr v.data ++ encInt v.timestamp ++ encStr v.msgID

/-- One serialized key → record entry. -/
def encPair (p : String × Value) : List Char := encStr p.1 ++ encValue p.2

/-- A serialized snapshot: entry count, then the entries. -/
def encSnapshot (l : List (String × Value)) : List Char :=
  encNat l.length ++ (l.map encPair).flatten

/-- Decode a unary length marker. -/
def decNat : List Char → Option (Nat × List Char)
  | [] => none
  | c :: rest =>
    if c = '1' then (decNat rest).map (fun p => (p.1 + 1, p.2))
    else if c = ':' then some (0, rest)
    else none

/-- Split off exactly `n` characters, failing when fewer remain. -/
def takeN : Nat → List Char → Option (List Char × List Char)
  | 0, cs => some ([], cs)
  | _ + 1, [] => none
  | n + 1, c :: cs => (takeN n cs).map (fun p => (c :: p.1, p.2))

/-- Decode a length-prefixed string field. -/
def decStr (cs : List Char) : Option (String × List Char) :=
  (decNat cs).bind fun p => (takeN p.1 p.2).map fun q => (String.mk q.1, q.2)

/-- Decode a signed integer field. -/
def decInt : List Char → Option (Int × List Char)
  | '+' :: rest => (decNat rest).map fun p => ((p.1 : Int), p.2)
  | '-' :: rest => (decNat rest).map fun p => (Int.negSucc p.1, p.2)
  | _ => none

/-- Decode one record. -/
def decValue (cs : List Char) : Option (Value × List Char) :=
  (decStr cs).bind fun d =>
    (decInt d.2).bind fun t =>
      (decStr t.2).map fun m => (⟨d.1, t.1, m.1⟩, m.2)

/-- Decode one key → record entry. -/
def decPair (cs : List Char) : Option ((String × Value) × List Char) :=
  (decStr cs).bind fun k => (decValue k.2).map fun v => ((k.1, v.1), v.2)

/-- Decode exactly `n` entries. -/
def decPairs : Nat → List Char → Option (List (String × Value) × List Char)
  | 0, cs => some ([], cs)
  | n + 1, cs =>
    (decPair cs).bind fun p =>
      (decPairs n p.2).map fun rest => (p.1 :: rest.1, rest.2)

/-- `json.Unmarshal` of a snapshot blob: fails unless the whole input is
one well-formed snapshot. -/
def decodeSnapshot (cs : List Char) : Option (List (String × Value)) :=
  (decNat cs).bind fun n =>
    (decPairs n.1 n.2).bind fun l =>
      if l.2 = [] then some l.1 else none

/-- `(*Store).GetSnapshot()`: serialize a point-in-time copy of every record. -/
def GetSnapshot (s : Store) : List Char := encSnapshot s.data

/-- The error message returned when the snapshot payload does not parse. -/
def unmarshalErr : String := "invalid snapshot payload"

/-- The body of the `ApplySnapshot` merge loop for one incoming
(key, record) pair: write iff the key is absent or the incoming
timestamp is strictly greater, and in that case mark the incoming
record's `MsgID` seen when it is non-empty. -/
def applyPair (s : Store) (p : String × Value) : Store :=
  match lookupKey s.data p.1 with
  | none =>
    ⟨setKey s.data p.1 p.2,
     if p.2.msgID = "" then s.lastSeenMsgID else p.2.msgID :: s.lastSeenMsgID⟩
  | some current =>
    if p.2.timestamp > current.timestamp then
      ⟨setKey s.data p.1 p.2,
       if p.2.msgID = "" then s.lastSeenMsgID else p.2.msgID :: s.lastSeenMsgID⟩
    else s

/-- `(*Store).ApplySnapshot(data []byte) error`: parse the whole blob
first, returning the error and leaving the store untouched on failure;
otherwise merge every entry with `applyPair`.  The result is the new
store state paired with the returned error (`none` = nil). -/
def ApplySnapshot (blob : List Char) (s : Store) : Store × Option String :=
  match decodeSnapshot blob with
  | none => (s, some unmarshalErr)
  | some pairs => (pairs.foldl applyPair s, none)

/-- One public mutating operation on the store. -/
inductive Op where
  | set (key value : String) (timestamp : Int) (msgID : String)
  | del (key : String) (timestamp : Int) (msgID : String)
  | snap (blob : List Char)
deriving DecidableEq

/-- Apply one operation to a store state. -/
def step (s : Store) : Op → Store
  | .set k v t m => Set k v t m s
  | .del k t m => Del k t m s
  | .snap b => (ApplySnapshot b s).1

/-- Run a sequence of operations from the empty store. -/
def runOps (ops : List Op) : Store := ops.foldl step New

/-- The store state after the first `n` operations of a sequence. -/
def storeAt (ops : List Op) (n : Nat) : Store := (ops.take n).foldl step New

/-- Whether an operation is a delete. -/
def Op.isDel : Op → Bool
  | .del _ _ _ => true
  | _ => false

/-- The message ids carried by the put operations of a sequence. -/
def setMsgIds (ops : List Op) : List String :=
  ops.filterMap fun op =>
    match op with
    | .set _ _ _ m => some m
    | _ => none

/-- Whether every operation in a sequence is a put. -/
def allSets (ops : List Op) : Bool := ops.all fun op =>
  match op with
  | .set _ _ _ _ => true
  | _ => false

/-- The last-write-wins resolution of an incoming record against the
current one: the incoming record wins iff the slot is empty or its
timestamp is strictly greater. -/
def mergeLook : Option Value → Option Value → Option Value
  | none, cur => cur
  | some v, none => some v
  | some v, some c => if v.timestamp > c.timestamp then some v else some c

/-- One anti-entropy pull: `dst` applies the snapshot produced by `src`
(the reconciliation loop calls `ApplySnapshot(peer.GetSnapshot())`). -/
def mergePeer (dst src : Store) : Store := (ApplySnapshot (GetSnapshot src) dst).1

/-- The per-key timestamp monotonicity invariant exactly as the claim
states it, over arbitrary sequences of put, delete and applySnapshot
operations: a record currently stored for a key never has a strictly
smaller timestamp than one previously stored for that key. -/
def C4Claim : Prop :=
  ∀ (ops : List Op) (i j : Nat) (k : String) (ri rj : Value), i ≤ j →
    lookupKey (storeAt ops i).data k = some ri →
    lookupKey (storeAt ops j).data k = some rj →
    ri.timestamp ≤ rj.timestamp

/-- The seeding half of the applySnapshot claim exactly as stated:
after a successful applySnapshot, *every* pair of the blob with a
non-empty origin message id has been seeded into the Dedup Ledger. -/
def C5Claim : Prop :=
  ∀ (s : Store) (blob : List Char) (l : List (String × Value)),
    decodeSnapshot blob = some l →
    ∀ p, p ∈ l → p.2.msgID ≠ "" →
      ((ApplySnapshot blob s).1).lastSeenMsgID.contains p.2.msgID = true

/-- The merge-convergence claim exactly as stated: two stores built from
put-only histories with disjoint message ids; after each pulls the
other's snapshot, key sets are unions, and for every key present in
both, both stores hold one common record — one of the two originals —
whose timestamp is at least both original timestamps. -/
def C8Claim : Prop :=
  ∀ (opsA opsB : List Op), allSets opsA = true → allSets opsB = true →
    (∀ m, m ∈ setMsgIds opsA → m ∉ setMsgIds opsB) →
    (∀ k : String,
      ((∃ r, lookupKey (mergePeer (runOps opsA) (runOps opsB)).data k = some r) ↔
        ((∃ r, lookupKey (runOps opsA).data k = some r) ∨
         (∃ r, lookupKey (runOps opsB).data k = some r)))
      ∧ ((∃ r, lookupKey (mergePeer (runOps opsB) (runOps opsA)).data k = some r) ↔
        ((∃ r, lookupKey (runOps opsA).data k = some r) ∨
         (∃ r, lookupKey (runOps opsB).data k = some r))))
    ∧ (∀ (k : String) (rA rB : Value),
        lookupKey (runOps opsA).data k = some rA →
        lookupKey (runOps opsB).data k = some rB →
        ∃ r, lookupKey (mergePeer (runOps opsA) (runOps opsB)).data k = some r ∧
          lookupKey (mergePeer (runOps opsB) (runOps opsA)).data k = some r ∧
          (r = rA ∨ r = rB) ∧
          rA.timestamp ≤ r.timestamp ∧ rB.timestamp ≤ r.timestamp)

/-!
Basic lemmas about the association-list operations.
-/

theorem lookupKey_eq_none_of_not_mem (l : List (String × Value)) (k : String)
    (h : k ∉ l.map Prod.fst) : lookupKey l k = none := by
  induction l with
  | nil => rfl
  | cons p rest ih =>
    obtain ⟨k', v'⟩ := p
    simp only [List.map_cons, List.mem_cons, not_or] at h
    have hne : ¬ k' = k := fun hh => h.1 hh.symm
    simp [lookupKey, hne, ih h.2]

theorem lookupKey_setKey_self (l : List (String × Value)) (k : String) (v : Value) :
    lookupKey (setKey l k v) k = some v := by
  induction l with
  | nil => simp [setKey, lookupKey]
  | cons p rest ih =>
    obtain ⟨k', v'⟩ := p
    by_cases h : k' = k <;> simp [setKey, lookupKey, h, ih]

theorem lookupKey_setKey_ne (l : List (String × Value)) (k : String) (v : Value)
    (k2 : String) (h : k2 ≠ k) : lookupKey (setKey l k v) k2 = lookupKey l k2 := by
  have hne : ¬ k = k2 := fun hh => h hh.symm
  induction l with
  | nil => simp [setKey, lookupKey, hne]
  | cons p rest ih =>
    obtain ⟨k', v'⟩ := p
    by_cases hk : k' = k
    · subst hk
      simp [setKey, lookupKey, hne]
    · by_cases hk2 : k' = k2
      · subst hk2
        simp [setKey, lookupKey, hk]
      · simp [setKey, lookupKey, hk, hk2, ih]

theorem lookupKey_delKey_self (l : List (String × Value)) (k : String) :
    lookupKey (delKey l k) k = none := by
  induction l with
  | nil => rfl
  | cons p rest ih =>
    obtain ⟨k', v'⟩ := p
    by_cases h : k' = k <;> simp [delKey, lookupKey, h, ih]

theorem lookupKey_delKey_ne (l : List (String × Value)) (k k2 : String) (h : k2 ≠ k) :
    lookupKey (delKey l k) k2 = lookupKey l k2 := by
  have hne : ¬ k = k2 := fun hh => h hh.symm
  induction l with
  | nil => rfl
  | cons p rest ih =>
    obtain ⟨k', v'⟩ := p
    by_cases hk : k' = k
    · subst hk
      simp [delKey, lookupKey, hne, ih]
    · by_cases hk2 : k' = k2
      · subst hk2
        simp [delKey, lookupKey, hk]
      · simp [delKey, lookupKey, hk, hk2, ih]

theorem mem_keys_setKey (l : List (String × Value)) (k : String) (v : Value) (a : String)
    (h : a ∈ (setKey l k v).map Prod.fst) : a = k ∨ a ∈ l.map Prod.fst := by
  induction l with
  | nil => simpa [setKey] using h
  | cons p rest ih =>
    obtain ⟨k', v'⟩ := p
    by_cases hk : k' = k
    · subst hk
      simpa [setKey] using h
    · simp only [setKey, if_neg hk, List.map_cons, List.mem_cons] at h
      rcases h with h | h
      · simp [h]
      · rcases ih h with h | h
        · exact Or.inl h
        · exact Or.inr (by simp [h])

theorem mem_keys_delKey (l : List (String × Value)) (k a : String)
    (h : a ∈ (delKey l k).map Prod.fst) : a ∈ l.map Prod.fst := by
  induction l with
  | nil => simp [delKey] at h
  | cons p rest ih =>
    obtain ⟨k', v'⟩ := p
    by_cases hk : k' = k
    · simp only [delKey, if_pos hk] at h
      exact by simp [ih h]
    · simp only [delKey, if_neg hk, List.map_cons, List.mem_cons] at h
      rcases h with h | h
      · simp [h]
      · simp [ih h]

theorem nodup_keys_setKey (l : List (String × Value)) (k : String) (v : Value)
    (h : (l.map Prod.fst).Nodup) : ((setKey l k v).map Prod.fst).Nodup := by
  induction l with
  | nil => simp [setKey]
  | cons p rest ih =>
    obtain ⟨k', v'⟩ := p
    simp only [List.map_cons, List.nodup_cons] at h
    by_cases hk : k' = k
    · subst hk
      simpa [setKey] using h
    · simp only [setKey, if_neg hk, List.map_cons, List.nodup_cons]
      refine ⟨fun hmem => ?_, ih h.2⟩
      rcases mem_keys_setKey rest k v k' hmem with hh | hh
      · exact hk hh
      · exact h.1 hh

theorem nodup_keys_delKey (l : List (String × Value)) (k : String)
    (h : (l.map Prod.fst).Nodup) : ((delKey l k).map Prod.fst).Nodup := by
  induction l with
  | nil => simp [delKey]
  | cons p rest ih =>
    obtain ⟨k', v'⟩ := p
    simp only [List.map_cons, List.nodup_cons] at h
    by_cases hk : k' = k
    · simpa [delKey, hk] using ih h.2
    · simp only [delKey, if_neg hk, List.map_cons, List.nodup_cons]
      exact ⟨fun hmem => h.1 (mem_keys_delKey rest k k' hmem), ih h.2⟩

theorem lookupKey_eq_some_of_mem (l : List (String × Value))
    (h : (l.map Prod.fst).Nodup) (p : String × Value) (hp : p ∈ l) :
    lookupKey l p.1 = some p.2 := by
  induction l with
  | nil => cases hp
  | cons q rest ih =>
    obtain ⟨k', v'⟩ := q
    simp only [List.map_cons, List.nodup_cons] at h
    rcases List.mem_cons.mp hp with hq | hq
    · subst hq
      simp [lookupKey]
    · have hne : k' ≠ p.1 := fun hh => h.1 (hh ▸ List.mem_map_of_mem Prod.fst hq)
      simpa [lookupKey, hne] using ih h.2 hq

theorem contains_cons_of (l : List String) (x m : String) (h : l.contains m = true) :
    (x :: l).contains m = true := by
  simp only [List.contains_cons, h, Bool.or_true]

/-!
Round-trip lemmas for the snapshot codec.
-/

theorem decNat_encNat (n : Nat) (r : List Char) : decNat (encNat n ++ r) = some (n, r) := by
  induction n with
  | zero => rfl
  | succ n ih =>
    simp only [encNat, List.replicate_succ, List.cons_append, List.append_assoc,
      List.nil_append] at ih ⊢
    simp [decNat, ih]

theorem takeN_append (l r : List Char) : takeN l.length (l ++ r) = some (l, r) := by
  induction l with
  | nil => rfl
  | cons c cs ih => simp [takeN, List.length_cons, ih]

theorem mk_data (s : String) : String.mk s.data = s := rfl

theorem decStr_encStr (s : String) (r : List Char) : decStr (encStr s ++ r) = some (s, r) := by
  have h2 := takeN_append s.data r
  simp [decStr, encStr, List.append_assoc, decNat_encNat, h2, mk_data]
  exact ⟨s.data, h2, rfl⟩

theorem decInt_encInt (i : Int) (r : List Char) : decInt (encInt i ++ r) = some (i, r) := by
  cases i with
  | ofNat n => simp [encInt, decInt, decNat_encNat]
  | negSucc n => simp [encInt, decInt, decNat_encNat]

theorem decValue_encValue (v : Value) (r : List Char) :
    decValue (encValue v ++ r) = some (v, r) := by
  simp [decValue, encValue, List.append_assoc, decStr_encStr, decInt_encInt]

theorem decPair_encPair (p : String × Value) (r : List Char) :
    decPair (encPair p ++ r) = some (p, r) := by
  simp [decPair, encPair, List.append_assoc, decStr_encStr, decValue_encValue]

theorem decPairs_encPairs (l : List (String × Value)) (r : List Char) :
    decPairs l.length ((l.map encPair).flatten ++ r) = some (l, r) := by
  induction l with
  | nil => rfl
  | cons p rest ih =>
    simp [decPairs, List.append_assoc, decPair_encPair, ih]

theorem decodeSnapshot_encSnapshot (l : List (String × Value)) :
    decodeSnapshot (encSnapshot l) = some l := by
  have h := decPairs_encPairs l []
  simp only [List.append_nil] at h
  simp [decodeSnapshot, encSnapshot, decNat_encNat, h]

/-!
Characterisation of the snapshot merge step and the merge of a whole
snapshot into a store.
-/

theorem applyPair_lookup_self (s : Store) (k : String) (v : Value) :
    lookupKey (applyPair s (k, v)).data k = mergeLook (some v) (lookupKey s.data k) := by
  cases h : lookupKey s.data k with
  | none => simp [applyPair, mergeLook, h, lookupKey_setKey_self]
  | some cur =>
    by_cases ht : v.timestamp > cur.timestamp <;>
      simp [applyPair, mergeLook, h, ht, lookupKey_setKey_self]

theorem applyPair_lookup_ne (s : Store) (p : String × Value) (k : String) (h : k ≠ p.1) :
    lookupKey (applyPair s p).data k = lookupKey s.data k := by
  obtain ⟨k0, v0⟩ := p
  cases hl : lookupKey s.data k0 with
  | none => simp [applyPair, hl, lookupKey_setKey_ne _ _ _ _ h]
  | some cur =>
    by_cases ht : v0.timestamp > cur.timestamp <;>
      simp [applyPair, hl, ht, lookupKey_setKey_ne _ _ _ _ h]

theorem lookupKey_foldl_applyPair (l : List (String × Value))
    (h : (l.map Prod.fst).Nodup) (s : Store) (k : String) :
    lookupKey (l.foldl applyPair s).data k = mergeLook (lookupKey l k) (lookupKey s.data k) := by
  induction l generalizing s with
  | nil => rfl
  | cons p rest ih =>
    obtain ⟨k0, v0⟩ := p
    simp only [List.map_cons, List.nodup_cons] at h
    simp only [List.foldl_cons]
    by_cases hk : k0 = k
    · subst hk
      have hrest : lookupKey rest k0 = none := lookupKey_eq_none_of_not_mem rest k0 h.1
      rw [ih h.2 _, hrest, applyPair_lookup_self]
      simp [lookupKey, mergeLook]
    · rw [ih h.2 _, applyPair_lookup_ne s (k0, v0) k (fun hh => hk hh.symm)]
      simp [lookupKey, hk]

theorem foldl_applyPair_self (l : List (String × Value)) (s : Store)
    (h : ∀ p ∈ l, lookupKey s.data p.1 = some p.2) : l.foldl applyPair s = s := by
  induction l with
  | nil => rfl
  | cons p rest ih =>
    have hp := h p (List.mem_cons_self p rest)
    have hstep : applyPair s p = s := by
      simp [applyPair, hp, lt_irrefl]
    simp only [List.foldl_cons, hstep]
    exact ih (fun q hq => h q (List.mem_cons_of_mem p hq))

/-!
The dedup ledger only ever grows: every operation preserves membership,
and `Set`/`Del` insert their message id.
-/

theorem contains_set_mono (s : Store) (k v : String) (t : Int) (m m2 : String)
    (h : s.lastSeenMsgID.contains m2 = true) :
    (Set k v t m s).lastSeenMsgID.contains m2 = true := by
  have hm2 : m2 ∈ s.lastSeenMsgID := by simpa using h
  by_cases hs : m ∈ s.lastSeenMsgID
  · simp [Set, hs, hm2]
  · cases hl : lookupKey s.data k with
    | none => simp [Set, hs, hl, hm2]
    | some cur =>
      by_cases ht : t > cur.timestamp <;> simp [Set, hs, hl, ht, hm2]

theorem contains_del_mono (s : Store) (k : String) (t : Int) (m m2 : String)
    (h : s.lastSeenMsgID.contains m2 = true) :
    (Del k t m s).lastSeenMsgID.contains m2 = true := by
  have hm2 : m2 ∈ s.lastSeenMsgID := by simpa using h
  by_cases hs : m ∈ s.lastSeenMsgID
  · simp [Del, hs, hm2]
  · cases hl : lookupKey s.data k with
    | none => simp [Del, hs, hl, hm2]
    | some cur =>
      by_cases ht : t > cur.timestamp <;> simp [Del, hs, hl, ht, hm2]

theorem contains_applyPair_mono (s : Store) (p : String × Value) (m2 : String)
    (h : s.lastSeenMsgID.contains m2 = true) :
    (applyPair s p).lastSeenMsgID.contains m2 = true := by
  have hm2 : m2 ∈ s.lastSeenMsgID := by simpa using h
  obtain ⟨k0, v0⟩ := p
  cases hl : lookupKey s.data k0 with
  | none =>
    by_cases hm : v0.msgID = "" <;> simp [applyPair, hl, hm, hm2]
  | some cur =>
    by_cases ht : v0.timestamp > cur.timestamp
    · by_cases hm : v0.msgID = "" <;> simp [applyPair, hl, ht, hm, hm2]
    · simpa [applyPair, hl, ht] using h

theorem contains_foldl_applyPair_mono (l : List (String × Value)) (s : Store) (m2 : String)
    (h : s.lastSeenMsgID.contains m2 = true) :
    (l.foldl applyPair s).lastSeenMsgID.contains m2 = true := by
  induction l generalizing s with
  | nil => exact h
  | cons p rest ih =>
    simp only [List.foldl_cons]
    exact ih _ (contains_applyPair_mono s p m2 h)

theorem contains_step_mono (s : Store) (op : Op) (m2 : String)
    (h : s.lastSeenMsgID.contains m2 = true) :
    (step s op).lastSeenMsgID.contains m2 = true := by
  cases op with
  | set k v t m => exact contains_set_mono s k v t m m2 h
  | del k t m => exact contains_del_mono s k t m m2 h
  | snap b =>
    cases hd : decodeSnapshot b with
    | none => simpa [step, ApplySnapshot, hd] using h
    | some pairs =>
      simpa [step, ApplySnapshot, hd] using contains_foldl_applyPair_mono pairs s m2 h

theorem contains_self_set (s : Store) (k v : String) (t : Int) (m : String) :
    (Set k v t m s).lastSeenMsgID.contains m = true := by
  by_cases hs : m ∈ s.lastSeenMsgID
  · simp [Set, hs]
  · cases hl : lookupKey s.data k with
    | none => simp [Set, hs, hl]
    | some cur =>
      by_cases ht : t > cur.timestamp <;> simp [Set, hs, hl, ht]

theorem contains_self_del (s : Store) (k : String) (t : Int) (m : String) :
    (Del k t m s).lastSeenMsgID.contains m = true := by
  by_cases hs : m ∈ s.lastSeenMsgID
  · simp [Del, hs]
  · cases hl : lookupKey s.data k with
    | none => simp [Del, hs, hl]
    | some cur =>
      by_cases ht : t > cur.timestamp <;> simp [Del, hs, hl, ht]

/-!
Key uniqueness of the record map is an invariant of every operation
(on the Go side it is guaranteed by the `map` type).
-/

theorem nodup_keys_set (s : Store) (k v : String) (t : Int) (m : String)
    (h : (s.data.map Prod.fst).Nodup) : ((Set k v t m s).data.map Prod.fst).Nodup := by
  by_cases hs : m ∈ s.lastSeenMsgID
  · simpa [Set, hs] using h
  · cases hl : lookupKey s.data k with
    | none => simpa [Set, hs, hl] using nodup_keys_setKey s.data k _ h
    | some cur =>
      by_cases ht : t > cur.timestamp
      · simpa [Set, hs, hl, ht] using nodup_keys_setKey s.data k _ h
      · simpa [Set, hs, hl, ht] using h

theorem nodup_keys_del (s : Store) (k : String) (t : Int) (m : String)
    (h : (s.data.map Prod.fst).Nodup) : ((Del k t m s).data.map Prod.fst).Nodup := by
  by_cases hs : m ∈ s.lastSeenMsgID
  · simpa [Del, hs] using h
  · cases hl : lookupKey s.data k with
    | none => simpa [Del, hs, hl] using h
    | some cur =>
      by_cases ht : t > cur.timestamp
      · simpa [Del, hs, hl, ht] using nodup_keys_delKey s.data k h
      · simpa [Del, hs, hl, ht] using h

theorem nodup_keys_applyPair (s : Store) (p : String × Value)
    (h : (s.data.map Prod.fst).Nodup) : ((applyPair s p).data.map Prod.fst).Nodup := by
  obtain ⟨k0, v0⟩ := p
  cases hl : lookupKey s.data k0 with
  | none => simpa [applyPair, hl] using nodup_keys_setKey s.data k0 v0 h
  | some cur =>
    by_cases ht : v0.timestamp > cur.timestamp
    · simpa [applyPair, hl, ht] using nodup_keys_setKey s.data k0 v0 h
    · simpa [applyPair, hl, ht] using h

theorem nodup_keys_foldl_applyPair (l : List (String × Value)) (s : Store)
    (h : (s.data.map Prod.fst).Nodup) :
    ((l.foldl applyPair s).data.map Prod.fst).Nodup := by
  induction l generalizing s with
  | nil => exact h
  | cons p rest ih =>
    simp only [List.foldl_cons]
    exact ih _ (nodup_keys_applyPair s p h)

theorem nodup_keys_step (s : Store) (op : Op)
    (h : (s.data.map Prod.fst).Nodup) : ((step s op).data.map Prod.fst).Nodup := by
  cases op with
  | set k v t m => exact nodup_keys_set s k v t m h
  | del k t m => exact nodup_keys_del s k t m h
  | snap b =>
    cases hd : decodeSnapshot b with
    | none => simpa [step, ApplySnapshot, hd] using h
    | some pairs =>
      simpa [step, ApplySnapshot, hd] using nodup_keys_foldl_applyPair pairs s h

theorem nodup_keys_foldl_step (ops : List Op) (s : Store)
    (h : (s.data.map Prod.fst).Nodup) :
    ((ops.foldl step s).data.map Prod.fst).Nodup := by
  induction ops generalizing s with
  | nil => exact h
  | cons op rest ih =>
    simp only [List.foldl_cons]
    exact ih _ (nodup_keys_step s op h)

theorem nodup_keys_runOps (ops : List Op) : ((runOps ops).data.map Prod.fst).Nodup :=
  nodup_keys_foldl_step ops New (by simp [New])

/-!
Per-key timestamp monotonicity of the operations that never remove a
record (`Set` and the snapshot merge).
-/

theorem ts_mono_set (s : Store) (k0 v0 : String) (t0 : Int) (m0 k : String) (r : Value)
    (h : lookupKey s.data k = some r) :
    ∃ r2, lookupKey (Set k0 v0 t0 m0 s).data k = some r2 ∧ r.timestamp ≤ r2.timestamp := by
  by_cases hs : m0 ∈ s.lastSeenMsgID
  · exact ⟨r, by simp [Set, hs, h], le_refl _⟩
  · by_cases hk : k = k0
    · subst hk
      by_cases ht : t0 > r.timestamp
      · exact ⟨⟨v0, t0, m0⟩, by simp [Set, hs, h, ht, lookupKey_setKey_self], le_of_lt ht⟩
      · exact ⟨r, by simp [Set, hs, h, ht], le_refl _⟩
    · refine ⟨r, ?_, le_refl _⟩
      cases hl : lookupKey s.data k0 with
      | none => simp [Set, hs, hl, lookupKey_setKey_ne _ _ _ _ hk, h]
      | some cur =>
        by_cases ht : t0 > cur.timestamp <;>
          simp [Set, hs, hl, ht, lookupKey_setKey_ne _ _ _ _ hk, h]

theorem ts_mono_applyPair (s : Store) (p : String × Value) (k : String) (r : Value)
    (h : lookupKey s.data k = some r) :
    ∃ r2, lookupKey (applyPair s p).data k = some r2 ∧ r.timestamp ≤ r2.timestamp := by
  obtain ⟨k0, v0⟩ := p
  by_cases hk : k = k0
  · subst hk
    rw [applyPair_lookup_self, h]
    by_cases ht : v0.timestamp > r.timestamp
    · exact ⟨v0, by simp [mergeLook, ht], le_of_lt ht⟩
    · exact ⟨r, by simp [mergeLook, ht], le_refl _⟩
  · exact ⟨r, by rw [applyPair_lookup_ne s _ k hk]; exact h, le_refl _⟩

theorem ts_mono_foldl_applyPair (l : List (String × Value)) (s : Store) (k : String)
    (r : Value) (h : lookupKey s.data k = some r) :
    ∃ r2, lookupKey ((l.foldl applyPair s)).data k = some r2 ∧ r.timestamp ≤ r2.timestamp := by
  induction l generalizing s r with
  | nil => exact ⟨r, h, le_refl _⟩
  | cons p rest ih =>
    obtain ⟨r1, h1, hle1⟩ := ts_mono_applyPair s p k r h
    obtain ⟨r2, h2, hle2⟩ := ih (applyPair s p) r1 h1
    exact ⟨r2, by simpa [List.foldl_cons] using h2, le_trans hle1 hle2⟩

theorem ts_mono_step (s : Store) (op : Op) (k : String) (r : Value)
    (hop : op.isDel = false) (h : lookupKey s.data k = some r) :
    ∃ r2, lookupKey (step s op).data k = some r2 ∧ r.timestamp ≤ r2.timestamp := by
  cases op with
  | set k0 v0 t0 m0 => exact ts_mono_set s k0 v0 t0 m0 k r h
  | del k0 t0 m0 => simp [Op.isDel] at hop
  | snap b =>
    cases hd : decodeSnapshot b with
    | none => exact ⟨r, by simpa [step, ApplySnapshot, hd] using h, le_refl _⟩
    | some pairs =>
      obtain ⟨r2, h2, hle⟩ := ts_mono_foldl_applyPair pairs s k r h
      exact ⟨r2, by simpa [step, ApplySnapshot, hd] using h2, hle⟩

theorem ts_mono_foldl_step (ops : List Op) (k : String) :
    ∀ (s : Store) (r : Value), (∀ op ∈ ops, op.isDel = false) →
      lookupKey s.data k = some r →
      ∃ r2, lookupKey (ops.foldl step s).data k = some r2 ∧ r.timestamp ≤ r2.timestamp := by
  induction ops with
  | nil => exact fun s r _ h => ⟨r, h, le_refl _⟩
  | cons op rest ih =>
    intro s r hops h
    obtain ⟨r1, h1, hle1⟩ := ts_mono_step s op k r (hops op (List.mem_cons_self op rest)) h
    obtain ⟨r2, h2, hle2⟩ :=
      ih (step s op) r1 (fun q hq => hops q (List.mem_cons_of_mem op hq)) h1
    exact ⟨r2, by simpa [List.foldl_cons] using h2, le_trans hle1 hle2⟩

theorem storeAt_decomp (ops : List Op) (i j : Nat) (hij : i ≤ j) :
    storeAt ops j = ((ops.take j).drop i).foldl step (storeAt ops i) := by
  unfold storeAt
  conv_lhs => rw [← List.take_append_drop i (ops.take j)]
  rw [List.foldl_append, List.take_take, min_eq_left hij]

theorem set_noop_of_seen (s : Store) (k v : String) (t : Int) (m : String)
    (h : s.lastSeenMsgID.contains m = true) : Set k v t m s = s := by
  have hs : m ∈ s.lastSeenMsgID := by simpa using h
  simp [Set, hs]

theorem del_noop_of_seen (s : Store) (k : String) (t : Int) (m : String)
    (h : s.lastSeenMsgID.contains m = true) : Del k t m s = s := by
  have hs : m ∈ s.lastSeenMsgID := by simpa using h
  simp [Del, hs]

theorem lookup_mergePeer (dst src : Store) (hs : (src.data.map Prod.fst).Nodup)
    (k : String) :
    lookupKey (mergePeer dst src).data k =
      mergeLook (lookupKey src.data k) (lookupKey dst.data k) := by
  have hd := decodeSnapshot_encSnapshot src.data
  simp [mergePeer, ApplySnapshot, GetSnapshot, hd, lookupKey_foldl_applyPair src.data hs dst k]

theorem exists_mergeLook (a b : Option Value) :
    (∃ r, mergeLook a b = some r) ↔ ((∃ r, b = some r) ∨ (∃ r, a = some r)) := by
  cases a with
  | none => simp [mergeLook]
  | some v =>
    cases b with
    | none => simp [mergeLook]
    | some c =>
      by_cases ht : v.timestamp > c.timestamp <;> simp [mergeLook, ht]

/-!
The claims.
-/

/-- C1: for every store state and every `put(key, value, timestamp,
messageID)` whose message id is not yet in the Dedup Ledger, the call
marks the id seen, and writes the new record for `key` iff no record
exists or the timestamp is strictly greater than the existing record's;
on an equal (or smaller) timestamp the existing record is retained
unchanged. -/
theorem set_fresh_msg_spec (s : Store) (k v : String) (t : Int) (m : String)
    (h : s.lastSeenMsgID.contains m = false) :
    (Set k v t m s).lastSeenMsgID.contains m = true
    ∧ (lookupKey s.data k = none →
        lookupKey (Set k v t m s).data k = some ⟨v, t, m⟩)
    ∧ (∀ cur, lookupKey s.data k = some cur →
        (cur.timestamp < t → lookupKey (Set k v t m s).data k = some ⟨v, t, m⟩)
        ∧ (¬ cur.timestamp < t → lookupKey (Set k v t m s).data k = some cur)) := by
  have hs : ¬ m ∈ s.lastSeenMsgID := by simpa using h
  refine ⟨contains_self_set s k v t m, ?_, ?_⟩
  · intro hl
    simp [Set, hs, hl, lookupKey_setKey_self]
  · intro cur hl
    exact ⟨fun ht => by simp [Set, hs, hl, ht, lookupKey_setKey_self],
           fun ht => by simp [Set, hs, hl, ht]⟩

/-- Witness for C1 at a concrete fresh store. -/
theorem set_fresh_msg_spec_witness :
    (Set "k" "v" 5 "m" New).lastSeenMsgID.contains "m" = true
    ∧ lookupKey (Set "k" "v" 5 "m" New).data "k" = some ⟨"v", 5, "m"⟩ := by
  have h := set_fresh_msg_spec New "k" "v" 5 "m" (by decide)
  exact ⟨h.1, h.2.1 (by decide)⟩

/-- C2: a put or delete whose message id is already in the Dedup Ledger
is a silent no-op leaving the whole store state unchanged; in
particular `put(k, v1, t1, m)` then `put(k, v2, t2, m)` with `t2 > t1`
leaves the stored value for `k` equal to `(v1, t1)`. -/
theorem duplicate_msg_noop (s : Store) (k v : String) (t : Int) (m : String)
    (h : s.lastSeenMsgID.contains m = true) :
    Set k v t m s = s ∧ Del k t m s = s
    ∧ (∀ (k1 v1 : String) (t1 : Int) (v2 : String) (t2 : Int) (m1 : String), t1 < t2 →
        Set k1 v2 t2 m1 (Set k1 v1 t1 m1 New) = Set k1 v1 t1 m1 New
        ∧ lookupKey (Set k1 v2 t2 m1 (Set k1 v1 t1 m1 New)).data k1 = some ⟨v1, t1, m1⟩) := by
  refine ⟨set_noop_of_seen s k v t m h, del_noop_of_seen s k t m h, ?_⟩
  intro k1 v1 t1 v2 t2 m1 _
  have h1 : lookupKey (Set k1 v1 t1 m1 New).data k1 = some ⟨v1, t1, m1⟩ := by
    simp [Set, New, lookupKey, setKey]
  have hno : Set k1 v2 t2 m1 (Set k1 v1 t1 m1 New) = Set k1 v1 t1 m1 New :=
    set_noop_of_seen _ _ _ _ _ (contains_self_set New k1 v1 t1 m1)
  exact ⟨hno, by rw [hno]; exact h1⟩

/-- Witness for C2 at a concrete store and duplicate-id put pair. -/
theorem duplicate_msg_noop_witness :
    Set "k" "v" 1 "m" ⟨[], ["m"]⟩ = (⟨[], ["m"]⟩ : Store)
    ∧ lookupKey (Set "a" "v2" 7 "dup" (Set "a" "v1" 3 "dup" New)).data "a" =
        some ⟨"v1", 3, "dup"⟩ := by
  have h := duplicate_msg_noop (⟨[], ["m"]⟩ : Store) "k" "v" 1 "m" (by decide)
  exact ⟨h.1, (h.2.2 "a" "v1" 3 "v2" 7 "dup" (by decide)).2⟩

/-- C3: for every store state and every `delete(key, timestamp,
messageID)` whose message id is not yet in the Dedup Ledger, the key is
removed iff a record exists and the timestamp is strictly greater than
its stored timestamp; otherwise (no record, or timestamp not strictly
greater) the record map is left unchanged. -/
theorem del_fresh_msg_spec (s : Store) (k : String) (t : Int) (m : String)
    (h : s.lastSeenMsgID.contains m = false) :
    (lookupKey s.data k = none → (Del k t m s).data = s.data)
    ∧ (∀ cur, lookupKey s.data k = some cur →
        (cur.timestamp < t →
          lookupKey (Del k t m s).data k = none
          ∧ ∀ k2, k2 ≠ k → lookupKey (Del k t m s).data k2 = lookupKey s.data k2)
        ∧ (¬ cur.timestamp < t → (Del k t m s).data = s.data)) := by
  have hs : ¬ m ∈ s.lastSeenMsgID := by simpa using h
  refine ⟨fun hl => by simp [Del, hs, hl], ?_⟩
  intro cur hl
  refine ⟨fun ht => ⟨?_, fun k2 hk2 => ?_⟩, fun ht => by simp [Del, hs, hl, ht]⟩
  · simp [Del, hs, hl, ht, lookupKey_delKey_self]
  · simp [Del, hs, hl, ht, lookupKey_delKey_ne _ _ _ hk2]

/-- Witness for C3: a live delete removes a concrete record. -/
theorem del_fresh_msg_spec_witness :
    lookupKey (Del "k" 9 "m2" (⟨[("k", ⟨"v", 5, "m1"⟩)], ["m1"]⟩ : Store)).data "k" = none := by
  have h := del_fresh_msg_spec (⟨[("k", ⟨"v", 5, "m1"⟩)], ["m1"]⟩ : Store) "k" 9 "m2" (by decide)
  exact ((h.2 ⟨"v", 5, "m1"⟩ (by decide)).1 (by decide)).1

/-- C6: a byte sequence that does not parse as a snapshot makes
`ApplySnapshot` return an error to its caller and leaves the store
state completely unchanged. -/
theorem apply_snapshot_malformed (s : Store) (blob : List Char)
    (h : decodeSnapshot blob = none) :
    ApplySnapshot blob s = (s, some unmarshalErr) := by
  simp [ApplySnapshot, h]

/-- Witness for C6 at a concrete malformed blob. -/
theorem apply_snapshot_malformed_witness :
    ApplySnapshot ['x'] New = (New, some unmarshalErr) :=
  apply_snapshot_malformed New ['x'] (by decide)

/-- C7: applying a store's own snapshot to the identical store is a
no-op (record map and Dedup Ledger unchanged, nil error), and the
snapshot serialization round-trips every record losslessly. -/
theorem snapshot_roundtrip (s : Store) (h : (s.data.map Prod.fst).Nodup) :
    ApplySnapshot (GetSnapshot s) s = (s, none)
    ∧ ∀ l : List (String × Value), decodeSnapshot (encSnapshot l) = some l := by
  constructor
  · have hd : decodeSnapshot (GetSnapshot s) = some s.data := decodeSnapshot_encSnapshot s.data
    have hself : s.data.foldl applyPair s = s :=
      foldl_applyPair_self s.data s (fun p hp => lookupKey_eq_some_of_mem s.data h p hp)
    simp [ApplySnapshot, hd, hself]
  · exact decodeSnapshot_encSnapshot

/-- Witness for C7 at a concrete store. -/
theorem snapshot_roundtrip_witness :
    ApplySnapshot (GetSnapshot (⟨[("k", ⟨"a", 10, "m0"⟩)], ["m0"]⟩ : Store))
        (⟨[("k", ⟨"a", 10, "m0"⟩)], ["m0"]⟩ : Store) =
      ((⟨[("k", ⟨"a", 10, "m0"⟩)], ["m0"]⟩ : Store), none) :=
  (snapshot_roundtrip (⟨[("k", ⟨"a", 10, "m0"⟩)], ["m0"]⟩ : Store) (by decide)).1

/-- C9: put and delete add their message id to the Dedup Ledger
unconditionally (also when the mutation is rejected as stale or the key
is absent), and no operation ever removes a ledger entry. -/
theorem ledger_grows :
    (∀ (s : Store) (k v : String) (t : Int) (m : String),
        (Set k v t m s).lastSeenMsgID.contains m = true
        ∧ (Del k t m s).lastSeenMsgID.contains m = true)
    ∧ (∀ (s : Store) (op : Op) (m2 : String),
        s.lastSeenMsgID.contains m2 = true →
        (step s op).lastSeenMsgID.contains m2 = true) :=
  ⟨fun s k v t m => ⟨contains_self_set s k v t m, contains_self_del s k t m⟩,
   fun s op m2 h => contains_step_mono s op m2 h⟩

/-- Witness for C9: a stale put still marks its id, and an existing
ledger entry survives an operation. -/
theorem ledger_grows_witness :
    (Set "k" "w" 1 "mNew" (⟨[("k", ⟨"v", 5, "m1"⟩)], ["m1"]⟩ : Store)).lastSeenMsgID.contains
        "mNew" = true
    ∧ (step (⟨[], ["m0"]⟩ : Store) (Op.set "k" "v" 1 "m")).lastSeenMsgID.contains "m0" =
        true :=
  ⟨(ledger_grows.1 (⟨[("k", ⟨"v", 5, "m1"⟩)], ["m1"]⟩ : Store) "k" "w" 1 "mNew").1,
   ledger_grows.2 (⟨[], ["m0"]⟩ : Store) (Op.set "k" "v" 1 "m") "m0" (by decide)⟩

/-- C10: the empty string gets no special treatment as a message id:
the first put or delete carrying `""` adds `""` to the Dedup Ledger,
and afterwards every put or delete carrying `""` leaves the record map
unchanged, for any key and timestamp. -/
theorem empty_msgid_not_special :
    (∀ (s : Store) (k v : String) (t : Int),
        s.lastSeenMsgID.contains "" = false →
        (Set k v t "" s).lastSeenMsgID.contains "" = true)
    ∧ (∀ (s : Store) (k : String) (t : Int),
        s.lastSeenMsgID.contains "" = false →
        (Del k t "" s).lastSeenMsgID.contains "" = true)
    ∧ (∀ (s : Store) (k v : String) (t : Int),
        s.lastSeenMsgID.contains "" = true → (Set k v t "" s).data = s.data)
    ∧ (∀ (s : Store) (k : String) (t : Int),
        s.lastSeenMsgID.contains "" = true → (Del k t "" s).data = s.data) :=
  ⟨fun s k v t _ => contains_self_set s k v t "",
   fun s k t _ => contains_self_del s k t "",
   fun s k v t h => by rw [set_noop_of_seen s k v t "" h],
   fun s k t h => by rw [del_noop_of_seen s k t "" h]⟩

/-- Witness for C10 at concrete stores. -/
theorem empty_msgid_not_special_witness :
    (Set "k" "v" 1 "" New).lastSeenMsgID.contains "" = true
    ∧ (Set "k" "w" 99 "" (⟨[("k", ⟨"v", 1, ""⟩)], [""]⟩ : Store)).data =
        [("k", ⟨"v", 1, ""⟩)] :=
  ⟨empty_msgid_not_special.1 New "k" "v" 1 (by decide),
   empty_msgid_not_special.2.2.1 (⟨[("k", ⟨"v", 1, ""⟩)], [""]⟩ : Store) "k" "w" 99 (by decide)⟩

/-- C4 as stated is false: a delete erases the key together with its
timestamp, after which a put with a strictly smaller timestamp than a
previously stored record is accepted.  Concretely: put `k` at t=10,
delete `k` at t=11, put `k` at t=5 — the store ends holding t=5 after
having held t=10. -/
theorem ts_monotone_counterexample : ¬ C4Claim := by
  intro h
  have := h [.set "k" "v" 10 "m1", .del "k" 11 "m2", .set "k" "w" 5 "m3"] 1 3 "k"
    ⟨"v", 10, "m1"⟩ ⟨"w", 5, "m3"⟩ (by decide) (by decide) (by decide)
  exact absurd this (by decide)

/-- C4 amended: over sequences of put and applySnapshot operations
containing no delete, per-key timestamps are monotone — a record stored
for a key at any later point never has a strictly smaller timestamp
than one stored earlier. -/
theorem ts_monotone_no_del (ops : List Op) (i j : Nat) (k : String) (ri rj : Value)
    (hnd : ∀ op ∈ ops, op.isDel = false) (hij : i ≤ j)
    (hi : lookupKey (storeAt ops i).data k = some ri)
    (hj : lookupKey (storeAt ops j).data k = some rj) :
    ri.timestamp ≤ rj.timestamp := by
  have hsub : ∀ op ∈ (ops.take j).drop i, op.isDel = false := fun op hop =>
    hnd op (List.take_subset j ops (List.drop_subset i _ hop))
  obtain ⟨r2, h2, hle⟩ :=
    ts_mono_foldl_step ((ops.take j).drop i) k (storeAt ops i) ri hsub hi
  rw [← storeAt_decomp ops i j hij] at h2
  rw [hj] at h2
  rw [Option.some.inj h2]
  exact hle

/-- Witness for the amended C4 at a concrete delete-free history. -/
theorem ts_monotone_no_del_witness :
    (Value.mk "v" 3 "m1").timestamp ≤ (Value.mk "w" 7 "m2").timestamp :=
  ts_monotone_no_del [.set "k" "v" 3 "m1", .set "k" "w" 7 "m2"] 1 2 "k"
    ⟨"v", 3, "m1"⟩ ⟨"w", 7, "m2"⟩ (by decide) (by decide) (by decide) (by decide)

/-- C5 as stated is false: `ApplySnapshot` seeds the Dedup Ledger only
for incoming records that actually win the timestamp comparison.  A
stale incoming record (timestamp not strictly greater than the current
one) with a non-empty origin message id is not seeded, so a later live
mutation with that id would not be suppressed. -/
theorem apply_snapshot_seed_counterexample : ¬ C5Claim := by
  intro h
  have := h (⟨[("k", ⟨"a", 10, "m0"⟩)], []⟩ : Store)
      (encSnapshot [("k", ⟨"b", 5, "m"⟩)]) [("k", ⟨"b", 5, "m"⟩)]
      (by decide) ("k", ⟨"b", 5, "m"⟩) (by decide) (by decide)
  exact absurd this (by decide)

/-- C5 amended: `ApplySnapshot` processes every pair of a well-formed
blob by the same strictly-greater-timestamp-wins rule as put, and seeds
the Dedup Ledger with the incoming record's origin message id exactly
when the incoming record is written and the id is non-empty; a pair
rejected as stale changes nothing, its message id included. -/
theorem apply_snapshot_pair_spec (s : Store) (k : String) (v : Value) :
    (lookupKey s.data k = none →
      applyPair s (k, v) = ⟨setKey s.data k v,
        if v.msgID = "" then s.lastSeenMsgID else v.msgID :: s.lastSeenMsgID⟩)
    ∧ (∀ cur, lookupKey s.data k = some cur →
        (cur.timestamp < v.timestamp →
          applyPair s (k, v) = ⟨setKey s.data k v,
            if v.msgID = "" then s.lastSeenMsgID else v.msgID :: s.lastSeenMsgID⟩)
        ∧ (¬ cur.timestamp < v.timestamp → applyPair s (k, v) = s))
    ∧ (∀ (blob : List Char) (l : List (String × Value)),
        decodeSnapshot blob = some l →
        ApplySnapshot blob s = (l.foldl applyPair s, none)) :=
  ⟨fun hl => by simp [applyPair, hl],
   fun cur hl =>
     ⟨fun ht => by simp [applyPair, hl, ht], fun ht => by simp [applyPair, hl, ht]⟩,
   fun blob l hd => by simp [ApplySnapshot, hd]⟩

/-- Witness for the amended C5: a winning incoming record is written
and its non-empty id seeded, at a concrete store. -/
theorem apply_snapshot_pair_spec_witness :
    applyPair (⟨[("k", ⟨"a", 1, "m0"⟩)], []⟩ : Store) ("k", ⟨"b", 5, "m"⟩) =
      (⟨[("k", ⟨"b", 5, "m"⟩)], ["m"]⟩ : Store) := by
  have h :=
    ((apply_snapshot_pair_spec (⟨[("k", ⟨"a", 1, "m0"⟩)], []⟩ : Store) "k"
          ⟨"b", 5, "m"⟩).2.1 ⟨"a", 1, "m0"⟩ (by decide)).1 (by decide)
  rw [h]
  decide

/-- C8 as stated is false in the equal-timestamp case: two stores that
wrote the same key with equal timestamps and different values do not
converge — each keeps its own record after the exchange, so no single
record is held by both. -/
theorem merge_convergence_counterexample : ¬ C8Claim := by
  intro h
  obtain ⟨r, hra, hrb, _⟩ :=
    (h [.set "k" "a" 5 "m1"] [.set "k" "b" 5 "m2"] (by decide) (by decide)
        (by decide)).2 "k" ⟨"a", 5, "m1"⟩ ⟨"b", 5, "m2"⟩ (by decide) (by decide)
  have ha : lookupKey
      (mergePeer (runOps [Op.set "k" "a" 5 "m1"]) (runOps [Op.set "k" "b" 5 "m2"])).data
      "k" = some ⟨"a", 5, "m1"⟩ := by decide
  have hb : lookupKey
      (mergePeer (runOps [Op.set "k" "b" 5 "m2"]) (runOps [Op.set "k" "a" 5 "m1"])).data
      "k" = some ⟨"b", 5, "m2"⟩ := by decide
  rw [ha] at hra
  rw [hb] at hrb
  rw [← Option.some.inj hra] at hrb
  exact absurd (Option.some.inj hrb) (by decide)

/-- C8 amended: for two stores built from put-only histories with
disjoint message ids, after each pulls the other's snapshot both key
sets are the union of the two original key sets; and every key present
in both stores before the exchange whose two records carry *different*
timestamps ends up, in both stores, with the record carrying the
greater timestamp (with equal timestamps each store keeps its own
record, so no common record is guaranteed). -/
theorem merge_convergence (opsA opsB : List Op)
    (_hA : allSets opsA = true) (_hB : allSets opsB = true)
    (_hdisj : ∀ m, m ∈ setMsgIds opsA → m ∉ setMsgIds opsB) :
    (∀ k : String,
      ((∃ r, lookupKey (mergePeer (runOps opsA) (runOps opsB)).data k = some r) ↔
        ((∃ r, lookupKey (runOps opsA).data k = some r) ∨
         (∃ r, lookupKey (runOps opsB).data k = some r)))
      ∧ ((∃ r, lookupKey (mergePeer (runOps opsB) (runOps opsA)).data k = some r) ↔
        ((∃ r, lookupKey (runOps opsA).data k = some r) ∨
         (∃ r, lookupKey (runOps opsB).data k = some r))))
    ∧ (∀ (k : String) (rA rB : Value),
        lookupKey (runOps opsA).data k = some rA →
        lookupKey (runOps opsB).data k = some rB →
        rA.timestamp ≠ rB.timestamp →
        ∃ r, lookupKey (mergePeer (runOps opsA) (runOps opsB)).data k = some r ∧
          lookupKey (mergePeer (runOps opsB) (runOps opsA)).data k = some r ∧
          ((rA.timestamp < rB.timestamp ∧ r = rB) ∨
           (rB.timestamp < rA.timestamp ∧ r = rA))) := by
  have hnA := nodup_keys_runOps opsA
  have hnB := nodup_keys_runOps opsB
  constructor
  · intro k
    constructor
    · rw [lookup_mergePeer _ _ hnB k]
      exact exists_mergeLook _ _
    · rw [lookup_mergePeer _ _ hnA k]
      exact (exists_mergeLook _ _).trans or_comm
  · intro k rA rB hA2 hB2 hne
    rw [lookup_mergePeer _ _ hnB k, hA2, hB2]
    rw [lookup_mergePeer _ _ hnA k, hB2, hA2]
    rcases lt_trichotomy rA.timestamp rB.timestamp with hlt | heq | hgt
    · refine ⟨rB, ?_, ?_, Or.inl ⟨hlt, rfl⟩⟩
      · simp [mergeLook, hlt]
      · simp [mergeLook, lt_asymm hlt]
    · exact absurd heq hne
    · refine ⟨rA, ?_, ?_, Or.inr ⟨hgt, rfl⟩⟩
      · simp [mergeLook, lt_asymm hgt]
      · simp [mergeLook, hgt]

/-- Witness for the amended C8 at two concrete single-put stores. -/
theorem merge_convergence_witness :
    ∃ r,
      lookupKey
          (mergePeer (runOps [Op.set "x" "a" 1 "mA"]) (runOps [Op.set "x" "b" 2 "mB"])).data
          "x" = some r ∧
      lookupKey
          (mergePeer (runOps [Op.set "x" "b" 2 "mB"]) (runOps [Op.set "x" "a" 1 "mA"])).data
          "x" = some r ∧
      (((Value.mk "a" 1 "mA").timestamp < (Value.mk "b" 2 "mB").timestamp ∧
          r = Value.mk "b" 2 "mB") ∨
       ((Value.mk "b" 2 "mB").timestamp < (Value.mk "a" 1 "mA").timestamp ∧
          r = Value.mk "a" 1 "mA")) :=
  (merge_convergence [Op.set "x" "a" 1 "mA"] [Op.set "x" "b" 2 "mB"] (by decide)
      (by decide) (by decide)).2 "x" ⟨"a", 1, "mA"⟩ ⟨"b", 2, "mB"⟩ (by decide) (by decide)
      (by decide)

end SimpleKV
